import Mathlib

/-!
Verification development for the scriptful repository: a minimalistic
stack-based interpreter (machine, dual stack, compressed condition stack)
together with a self-delimiting binary codec for scripts.

The definitions below are shallow embeddings of the Rust source files
under src/: pure functions become Lean functions, machine integers become
Nat with explicit reduction modulo 2 ^ 32 or 2 ^ 128 where the width is
observable, fallible code returns Option or Except, and the panics the
source performs through unwrap or slice indexing are modelled by an
explicit panic outcome.
-/

namespace Scriptful

/-! ## Byte utilities

The Rust source converts integers to and from little-endian byte arrays
with to_le_bytes and from_le_bytes.  Bytes are modelled as Nat below 256.
-/

/-- Little-endian bytes of a natural number, exactly `w` bytes wide
(the counterpart of to_le_bytes on a `w`-byte unsigned integer). -/
def leBytes : Nat → Nat → List Nat
  | 0, _ => []
  | w + 1, n => (n % 256) :: leBytes w (n / 256)

/-- Reads a little-endian byte list back into a natural number
(the counterpart of from_le_bytes, with absent high bytes treated as 0). -/
def fromLeBytes : List Nat → Nat :=
  List.foldr (fun b acc => b + 256 * acc) 0

/-- Two's-complement 16-byte image of an i128 as a natural number below 2 ^ 128
(the value whose little-endian bytes to_le_bytes would produce). -/
def toNat2c (v : ℤ) : Nat := (v % (2 ^ 128)).toNat

/-- Reinterprets a natural number below 2 ^ 128 as a signed i128, the
counterpart of i128::from_le_bytes applied after assembling 16 bytes. -/
def asI128 (n : Nat) : ℤ := if n < 2 ^ 127 then (n : ℤ) else (n : ℤ) - 2 ^ 128

/-! ## significant_bytes_count (src/codecs/simple/mod.rs)

    fn significant_bytes_count(input: i128) -> usize {
        let mut dividend = input.saturating_abs();
        let mut counter = 0;
        while dividend > 256 {
            dividend >>= 8;
            counter += 1;
        }
        counter
    }
-/

/-- Saturating absolute value of an i128: i128::MIN maps to i128::MAX,
every other value to its ordinary absolute value. -/
def satAbs (v : ℤ) : Nat :=
  if v = -(2 ^ 127) then 2 ^ 127 - 1 else v.natAbs

/-- The loop of significant_bytes_count, with an explicit iteration bound
so that the definition reduces by computation: count how many times the
dividend can be shifted right by 8 bits while it exceeds 256.  The
dividend strictly decreases on every iteration, so a bound equal to the
initial dividend always suffices (sbcGo_fuel below). -/
def sbcGo : Nat → Nat → Nat
  | 0, _ => 0
  | fuel + 1, d => if 256 < d then sbcGo fuel (d >>> 8) + 1 else 0

/-- The while loop of significant_bytes_count applied to a dividend. -/
def sbcLoop (d : Nat) : Nat := sbcGo d d

/-- Embedding of significant_bytes_count from src/codecs/simple/mod.rs. -/
def significant_bytes_count (input : ℤ) : Nat :=
  sbcLoop (satAbs input)

/-- The iteration bound of sbcGo is irrelevant as soon as it dominates
the dividend: the loop runs the same number of iterations. -/
theorem sbcGo_fuel : ∀ fuel fuel2 d : Nat, d ≤ fuel → d ≤ fuel2 →
    sbcGo fuel d = sbcGo fuel2 d := by
  intro fuel
  induction fuel with
  | zero =>
      intro fuel2 d hd _
      interval_cases d
      cases fuel2 <;> simp [sbcGo]
  | succ n ih =>
      intro fuel2 d hd hd2
      cases fuel2 with
      | zero =>
          interval_cases d
          simp [sbcGo]
      | succ m =>
          simp only [sbcGo]
          split
          · have hlt : d >>> 8 < d := by
              simp only [Nat.shiftRight_eq_div_pow]
              exact Nat.div_lt_self (by omega) (by norm_num)
            rw [ih m (d >>> 8) (by omega) (by omega)]
          · rfl

/-! ## Data model for the simple codec

The codec serializes Script<MathOperator, Value>.  The Float variant is
modelled by the raw 64-bit pattern of the f64 (the codec only ever moves
the bit pattern), and the String variant by its UTF-8 byte sequence.
-/

/-- The four-variant Value union of src/core/value.rs as the codec sees it:
floats as their raw 64-bit little-endian pattern, strings as UTF-8 bytes. -/
inductive CValue where
  | boolean (b : Bool)
  | float (bits : Nat)
  | integer (i : ℤ)
  | str (bytes : List Nat)
deriving DecidableEq, Repr

/-- The five opcodes of the simple_math operator system. -/
inductive MathOperator where
  | add
  | equal
  | mul
  | opNot
  | sub
deriving DecidableEq, Repr

/-- Item<Op, Val> from src/core/item.rs: either an operator or a value. -/
inductive Item (Op Val : Type) where
  | operator (op : Op)
  | value (v : Val)
deriving DecidableEq, Repr

/-- Script<Op, Val>: an ordered finite sequence of items. -/
abbrev Script (Op Val : Type) := List (Item Op Val)

/-! ## Encoder (src/codecs/simple/enc.rs) -/

/-- Encoding of a MathOperator: 0x80 plus its opcode. -/
def encodeOperator : MathOperator → List Nat
  | .add => [0x80]
  | .equal => [0x81]
  | .mul => [0x82]
  | .opNot => [0x83]
  | .sub => [0x84]

/-- Encoding of a Value, from the Encode impl in src/codecs/simple/enc.rs:
booleans as 0x00 or 0x01; floats as 0x02 plus 8 raw bytes; integers as
0x03 + sbc plus the low sbc + 1 little-endian two's-complement bytes;
strings as 0x13 when empty, else 0x13 + (1 + sbc of the length) plus that
many little-endian length bytes plus the payload. -/
def encodeValue : CValue → List Nat
  | .boolean false => [0x00]
  | .boolean true => [0x01]
  | .float bits => 0x02 :: leBytes 8 bits
  | .integer v =>
      (0x03 + significant_bytes_count v) ::
        (leBytes 16 (toNat2c v)).take (significant_bytes_count v + 1)
  | .str bytes =>
      if bytes.length = 0 then [0x13]
      else
        (0x13 + (1 + significant_bytes_count (bytes.length : ℤ))) ::
          ((leBytes 8 bytes.length).take (1 + significant_bytes_count (bytes.length : ℤ))
            ++ bytes)

/-- Encoding of a single item: dispatch to the operator or value encoder. -/
def encodeItem : Item MathOperator CValue → List Nat
  | .operator op => encodeOperator op
  | .value v => encodeValue v

/-- Encoding of a script: the concatenation of the item encodings. -/
def encodeScript (s : Script MathOperator CValue) : List Nat :=
  (s.map encodeItem).flatten

/-! ## Decoder (src/codecs/simple/dec.rs)

The decoder holds a byte vector and a cursor that only moves forward, so
it is modelled by the list of bytes not yet consumed.  A decoding step
either succeeds with a result and the remaining bytes, fails with a
DecodingError (message elided), or panics: the source panics through
copy_from_slice when a string discriminant announces more than 8 length
bytes, and decode_script panics through unwrap on any item error.
-/

/-- Outcome of one decoding step: success with remaining input, a typed
DecodingError, or a Rust panic. -/
inductive DRes (α : Type) where
  | ok (a : α) (rest : List Nat)
  | fail
  | panics
deriving DecidableEq, Repr

/-- Sequencing of decoding steps; errors and panics propagate. -/
def DRes.bind {α β : Type} : DRes α → (α → List Nat → DRes β) → DRes β
  | .ok a r, f => f a r
  | .fail, _ => .fail
  | .panics, _ => .panics

/-- Embedding of read_byte: take one byte, Eof error when none is left. -/
def readByte : List Nat → DRes Nat
  | [] => .fail
  | b :: r => .ok b r

/-- Embedding of read_bytes: take `n` bytes, Eof error when fewer remain. -/
def readBytes (n : Nat) (bytes : List Nat) : DRes (List Nat) :=
  if n ≤ bytes.length then .ok (bytes.take n) (bytes.drop n) else .fail

/-- Validity of a byte sequence as UTF-8, the check performed by
String::from_utf8: disallows bare continuation bytes, overlong forms,
surrogate code points and code points above U+10FFFF. -/
def isCont (b : Nat) : Bool := 0x80 ≤ b && b ≤ 0xBF

/-- UTF-8 validation over a byte list (RFC 3629 table). -/
def isValidUtf8 : List Nat → Bool
  | [] => true
  | b :: rest =>
    if b ≤ 0x7F then isValidUtf8 rest
    else if b < 0xC2 then false
    else if b ≤ 0xDF then
      match rest with
      | c1 :: r => isCont c1 && isValidUtf8 r
      | [] => false
    else if b = 0xE0 then
      match rest with
      | c1 :: c2 :: r => (0xA0 ≤ c1 && c1 ≤ 0xBF) && isCont c2 && isValidUtf8 r
      | _ => false
    else if b ≤ 0xEC then
      match rest with
      | c1 :: c2 :: r => isCont c1 && isCont c2 && isValidUtf8 r
      | _ => false
    else if b = 0xED then
      match rest with
      | c1 :: c2 :: r => (0x80 ≤ c1 && c1 ≤ 0x9F) && isCont c2 && isValidUtf8 r
      | _ => false
    else if b ≤ 0xEF then
      match rest with
      | c1 :: c2 :: r => isCont c1 && isCont c2 && isValidUtf8 r
      | _ => false
    else if b = 0xF0 then
      match rest with
      | c1 :: c2 :: c3 :: r =>
          (0x90 ≤ c1 && c1 ≤ 0xBF) && isCont c2 && isCont c3 && isValidUtf8 r
      | _ => false
    else if b ≤ 0xF3 then
      match rest with
      | c1 :: c2 :: c3 :: r => isCont c1 && isCont c2 && isCont c3 && isValidUtf8 r
      | _ => false
    else if b = 0xF4 then
      match rest with
      | c1 :: c2 :: c3 :: r =>
          (0x80 ≤ c1 && c1 ≤ 0x8F) && isCont c2 && isCont c3 && isValidUtf8 r
      | _ => false
    else false

/-- Embedding of decode_i128: consume the discriminant byte `b`, read
`b - 0x02` bytes, zero-extend them into 16 bytes and reinterpret the
little-endian result as a signed i128. -/
def decode_i128 (bytes : List Nat) : DRes ℤ :=
  (readByte bytes).bind fun b r =>
    (readBytes (b - 0x02) r).bind fun bs r2 =>
      .ok (asI128 (fromLeBytes bs)) r2

/-- Embedding of decode_f64: consume the discriminant byte, read 8 bytes
and keep the raw little-endian bit pattern. -/
def decode_f64 (bytes : List Nat) : DRes Nat :=
  (readByte bytes).bind fun _ r =>
    (readBytes 8 r).bind fun bs r2 =>
      .ok (fromLeBytes bs) r2

/-- Embedding of decode_string: consume the discriminant byte `b`, read
`b - 0x13` length bytes, copy them into an 8-byte buffer (a Rust panic
when more than 8 were announced), read that many payload bytes and
validate them as UTF-8. -/
def decode_string (bytes : List Nat) : DRes (List Nat) :=
  (readByte bytes).bind fun b r =>
    (readBytes (b - 0x13) r).bind fun lenBytes r2 =>
      if 8 < b - 0x13 then .panics
      else
        (readBytes (fromLeBytes lenBytes) r2).bind fun payload r3 =>
          if isValidUtf8 payload then .ok payload r3 else .fail

/-- Embedding of the Decode impl for MathOperator: consume one byte,
subtract 0x80 and look the opcode up; unknown opcodes are errors. -/
def decodeOperator (bytes : List Nat) : DRes MathOperator :=
  (readByte bytes).bind fun b r =>
    match b - 0x80 with
    | 0x00 => .ok .add r
    | 0x01 => .ok .equal r
    | 0x02 => .ok .mul r
    | 0x03 => .ok .opNot r
    | 0x04 => .ok .sub r
    | _ => .fail

/-- Embedding of the Decode impl for Value: peek the discriminant and
dispatch on its range; out-of-range discriminants are errors. -/
def decodeValue (bytes : List Nat) : DRes CValue :=
  match bytes.head? with
  | none => .fail
  | some b =>
    if b = 0x00 then (readByte bytes).bind fun _ r => .ok (.boolean false) r
    else if b = 0x01 then (readByte bytes).bind fun _ r => .ok (.boolean true) r
    else if b = 0x02 then (decode_f64 bytes).bind fun bits r => .ok (.float bits) r
    else if 0x03 ≤ b ∧ b ≤ 0x12 then
      (decode_i128 bytes).bind fun i r => .ok (.integer i) r
    else if 0x13 ≤ b ∧ b ≤ 0x79 then
      (decode_string bytes).bind fun s r => .ok (.str s) r
    else .fail

/-- Embedding of decode_item: peek the first byte, dispatch values below
0x80 to the value decoder and the rest to the operator decoder. -/
def decode_item (bytes : List Nat) : DRes (Item MathOperator CValue) :=
  match bytes.head? with
  | none => .fail
  | some b =>
    if b < 0x80 then (decodeValue bytes).bind fun v r => .ok (.value v) r
    else (decodeOperator bytes).bind fun op r => .ok (.operator op) r

/-- Inversion for a successful bind: the first step succeeded and the
continuation succeeded on its leftovers. -/
theorem DRes.bind_eq_ok {α β : Type} {x : DRes α} {f : α → List Nat → DRes β}
    {b : β} {r : List Nat} (h : DRes.bind x f = .ok b r) :
    ∃ a r1, x = .ok a r1 ∧ f a r1 = .ok b r := by
  cases x with
  | ok a r1 => exact ⟨a, r1, rfl, h⟩
  | fail => exact DRes.noConfusion h
  | panics => exact DRes.noConfusion h

/-- A successful read_byte splits the input into head and leftovers. -/
theorem readByte_eq_ok {bytes : List Nat} {a : Nat} {r : List Nat}
    (h : readByte bytes = .ok a r) : bytes = a :: r := by
  cases bytes with
  | nil => exact DRes.noConfusion h
  | cons b t =>
      simp only [readByte, DRes.ok.injEq] at h
      simp [h.1, h.2]

/-- A successful read_bytes leaves a suffix of the input. -/
theorem readBytes_eq_ok {n : Nat} {bytes bs r : List Nat}
    (h : readBytes n bytes = .ok bs r) :
    bs = bytes.take n ∧ r = bytes.drop n := by
  unfold readBytes at h
  split at h
  · simp only [DRes.ok.injEq] at h
    exact ⟨h.1.symm, h.2.symm⟩
  · exact DRes.noConfusion h

/-- A successful decode_f64 consumed at least one byte. -/
theorem decode_f64_consumes {bytes : List Nat} {v : Nat} {r : List Nat}
    (h : decode_f64 bytes = .ok v r) : r.length < bytes.length := by
  unfold decode_f64 at h
  obtain ⟨b, rb, hb, h2⟩ := DRes.bind_eq_ok h
  obtain ⟨bs, r2, hc, h3⟩ := DRes.bind_eq_ok h2
  simp only [DRes.ok.injEq] at h3
  rw [readByte_eq_ok hb, ← h3.2, (readBytes_eq_ok hc).2]
  simp only [List.length_cons, List.length_drop]
  omega

/-- A successful decode_i128 consumed at least one byte. -/
theorem decode_i128_consumes {bytes : List Nat} {v : ℤ} {r : List Nat}
    (h : decode_i128 bytes = .ok v r) : r.length < bytes.length := by
  unfold decode_i128 at h
  obtain ⟨b, rb, hb, h2⟩ := DRes.bind_eq_ok h
  obtain ⟨bs, r2, hc, h3⟩ := DRes.bind_eq_ok h2
  simp only [DRes.ok.injEq] at h3
  rw [readByte_eq_ok hb, ← h3.2, (readBytes_eq_ok hc).2]
  simp only [List.length_cons, List.length_drop]
  omega

/-- A successful decode_string consumed at least one byte. -/
theorem decode_string_consumes {bytes : List Nat} {v : List Nat} {r : List Nat}
    (h : decode_string bytes = .ok v r) : r.length < bytes.length := by
  unfold decode_string at h
  obtain ⟨b, rb, hb, h2⟩ := DRes.bind_eq_ok h
  obtain ⟨lb, r2, hc, h3⟩ := DRes.bind_eq_ok h2
  split at h3
  · exact DRes.noConfusion h3
  · obtain ⟨pl, r3, hd, h4⟩ := DRes.bind_eq_ok h3
    split at h4
    · simp only [DRes.ok.injEq] at h4
      rw [readByte_eq_ok hb, ← h4.2, (readBytes_eq_ok hd).2, (readBytes_eq_ok hc).2]
      simp only [List.length_cons, List.length_drop]
      omega
    · exact DRes.noConfusion h4

/-- A successful decodeValue consumed at least one byte. -/
theorem decodeValue_consumes {bytes : List Nat} {v : CValue} {r : List Nat}
    (h : decodeValue bytes = .ok v r) : r.length < bytes.length := by
  unfold decodeValue at h
  cases bytes with
  | nil => exact DRes.noConfusion h
  | cons b t =>
      simp only [List.head?_cons] at h
      split_ifs at h
      · obtain ⟨a, r1, ha, h2⟩ := DRes.bind_eq_ok h
        simp only [DRes.ok.injEq] at h2
        have hbt := readByte_eq_ok ha
        simp only [List.cons.injEq] at hbt
        rw [← h2.2, ← hbt.2]
        simp
      · obtain ⟨a, r1, ha, h2⟩ := DRes.bind_eq_ok h
        simp only [DRes.ok.injEq] at h2
        have hbt := readByte_eq_ok ha
        simp only [List.cons.injEq] at hbt
        rw [← h2.2, ← hbt.2]
        simp
      · obtain ⟨a, r1, ha, h2⟩ := DRes.bind_eq_ok h
        simp only [DRes.ok.injEq] at h2
        rw [← h2.2]
        exact decode_f64_consumes ha
      · obtain ⟨a, r1, ha, h2⟩ := DRes.bind_eq_ok h
        simp only [DRes.ok.injEq] at h2
        rw [← h2.2]
        exact decode_i128_consumes ha
      · obtain ⟨a, r1, ha, h2⟩ := DRes.bind_eq_ok h
        simp only [DRes.ok.injEq] at h2
        rw [← h2.2]
        exact decode_string_consumes ha

/-- A successful decodeOperator consumed at least one byte. -/
theorem decodeOperator_consumes {bytes : List Nat} {v : MathOperator} {r : List Nat}
    (h : decodeOperator bytes = .ok v r) : r.length < bytes.length := by
  unfold decodeOperator at h
  obtain ⟨b, rb, hb, h2⟩ := DRes.bind_eq_ok h
  rw [readByte_eq_ok hb]
  split at h2
  case _ =>
    simp only [DRes.ok.injEq] at h2
    rw [← h2.2]
    simp
  case _ =>
    simp only [DRes.ok.injEq] at h2
    rw [← h2.2]
    simp
  case _ =>
    simp only [DRes.ok.injEq] at h2
    rw [← h2.2]
    simp
  case _ =>
    simp only [DRes.ok.injEq] at h2
    rw [← h2.2]
    simp
  case _ =>
    simp only [DRes.ok.injEq] at h2
    rw [← h2.2]
    simp
  case _ => exact DRes.noConfusion h2

/-- A successful decode_item consumed at least one byte. -/
theorem decode_item_consumes {bytes : List Nat} {it : Item MathOperator CValue}
    {r : List Nat} (h : decode_item bytes = .ok it r) : r.length < bytes.length := by
  unfold decode_item at h
  cases bytes with
  | nil => exact DRes.noConfusion h
  | cons b t =>
      simp only [List.head?_cons] at h
      split at h
      · obtain ⟨a, r1, ha, h2⟩ := DRes.bind_eq_ok h
        simp only [DRes.ok.injEq] at h2
        rw [← h2.2]
        exact decodeValue_consumes ha
      · obtain ⟨a, r1, ha, h2⟩ := DRes.bind_eq_ok h
        simp only [DRes.ok.injEq] at h2
        rw [← h2.2]
        exact decodeOperator_consumes ha

/-- Outcome of decode_script: either a decoded script, or a Rust panic
coming from the unwrap on a failed item decode (or a panic inside an
item decode). -/
inductive SRes where
  | ok (s : Script MathOperator CValue)
  | panics
deriving DecidableEq, Repr

/-- The while loop of decode_script with an explicit iteration bound so
that the definition reduces by computation: while bytes remain, decode
one item and unwrap the result.  The unwrap turns every item-level
DecodingError into a panic.  Each successful item consumes at least one
byte (decode_item_consumes), so a bound of one more than the input
length always suffices (decodeLoop_fuel below). -/
def decodeLoop : Nat → List Nat → SRes
  | 0, _ => .panics
  | _ + 1, [] => .ok []
  | fuel + 1, b :: t =>
      match decode_item (b :: t) with
      | .ok item rest =>
          match decodeLoop fuel rest with
          | .ok s => .ok (item :: s)
          | .panics => .panics
      | .fail => .panics
      | .panics => .panics

/-- Embedding of decode_script from src/codecs/simple/dec.rs. -/
def decode_script (bytes : List Nat) : SRes :=
  decodeLoop (bytes.length + 1) bytes

/-- The iteration bound of decodeLoop is irrelevant as soon as it exceeds
the input length: the loop consumes at least one byte per iteration. -/
theorem decodeLoop_fuel : ∀ fuel fuel2 bytes, bytes.length < fuel →
    bytes.length < fuel2 → decodeLoop fuel bytes = decodeLoop fuel2 bytes := by
  intro fuel
  induction fuel with
  | zero => omega
  | succ n ih =>
      intro fuel2 bytes h1 h2
      cases fuel2 with
      | zero => omega
      | succ m =>
          cases bytes with
          | nil => rfl
          | cons b t =>
              simp only [decodeLoop]
              cases hi : decode_item (b :: t) with
              | ok item rest =>
                  have hc := decode_item_consumes hi
                  simp only [List.length_cons] at hc h1 h2
                  dsimp only
                  rw [ih m rest (by omega) (by omega)]
              | fail => rfl
              | panics => rfl

/-- Embedding of from_vec: build a decoder over the whole input and run
decode_script from cursor 0. -/
def from_vec (input : List Nat) : SRes := decode_script input

/-! ## Stack (src/core/stack.rs)

A Stack holds a main and an alt sequence of values.  Lists are ordered
with the top of the respective sub-stack at the head.  The source pops
with Vec::pop().unwrap(), which panics on an empty sub-stack; the panic
is modelled by returning none.
-/

/-- The dual LIFO container of src/core/stack.rs. -/
structure Stack (Val : Type) where
  main : List Val
  alt : List Val
deriving DecidableEq, Repr

/-- Embedding of Stack::length: the size of the main sub-stack. -/
def Stack.length {Val : Type} (s : Stack Val) : Nat := s.main.length

/-- Embedding of Stack::push: put a value on top of main. -/
def Stack.push {Val : Type} (s : Stack Val) (v : Val) : Stack Val :=
  { s with main := v :: s.main }

/-- Embedding of Stack::topmost: the top of main, if any. -/
def Stack.topmost {Val : Type} (s : Stack Val) : Option Val := s.main.head?

/-- Embedding of Stack::pop: self.main.pop().unwrap().  The unwrap panics
on an empty main sub-stack; none models that panic. -/
def Stack.pop {Val : Type} : Stack Val → Option (Val × Stack Val)
  | ⟨[], _⟩ => none
  | ⟨v :: rest, alt⟩ => some (v, ⟨rest, alt⟩)

/-- Embedding of Stack::pop_into_alt: move the top of main onto alt;
panics (none) on an empty main sub-stack. -/
def Stack.pop_into_alt {Val : Type} : Stack Val → Option (Stack Val)
  | ⟨[], _⟩ => none
  | ⟨v :: rest, alt⟩ => some ⟨rest, v :: alt⟩

/-- Embedding of Stack::push_from_alt: move the top of alt onto main;
panics (none) on an empty alt sub-stack. -/
def Stack.push_from_alt {Val : Type} : Stack Val → Option (Stack Val)
  | ⟨_, []⟩ => none
  | ⟨main, v :: rest⟩ => some ⟨v :: main, rest⟩

/-! ## ConditionStack (src/core/condition_stack.rs)

The compressed condition stack stores two u32 fields.  They are modelled
as Nat kept below 2 ^ 32, with the increment in push_back reduced modulo
2 ^ 32 exactly where the u32 addition can wrap (release-mode Rust
semantics; the wrap is observable, so it is modelled explicitly).
-/

/-- The u32 modulus. -/
def U32 : Nat := 2 ^ 32

/-- The sentinel NO_FALSE = u32::MAX. -/
def NO_FALSE : Nat := 2 ^ 32 - 1

/-- The compressed condition stack of src/core/condition_stack.rs. -/
structure ConditionStack where
  stack_size : Nat
  first_false_pos : Nat
deriving DecidableEq, Repr

/-- The Default impl: empty stack, no false present. -/
def ConditionStack.initial : ConditionStack := ⟨0, NO_FALSE⟩

/-- Embedding of ConditionStack::is_empty. -/
def ConditionStack.is_empty (cs : ConditionStack) : Bool := cs.stack_size == 0

/-- Embedding of ConditionStack::all_true. -/
def ConditionStack.all_true (cs : ConditionStack) : Bool :=
  cs.first_false_pos == NO_FALSE

/-- Embedding of ConditionStack::push_back: when everything is true and a
false arrives, the first false lands at the current size; the size is then
incremented (u32 addition, hence reduced modulo 2 ^ 32). -/
def ConditionStack.push_back (cs : ConditionStack) (b : Bool) : ConditionStack :=
  { stack_size := (cs.stack_size + 1) % U32
    first_false_pos :=
      if cs.first_false_pos = NO_FALSE ∧ b = false then cs.stack_size
      else cs.first_false_pos }

/-- Embedding of ConditionStack::pop_back: none on an empty stack;
otherwise decrement the size and clear the first false position when it
was the popped slot. -/
def ConditionStack.pop_back (cs : ConditionStack) : Option ConditionStack :=
  if cs.stack_size = 0 then none
  else
    some
      { stack_size := cs.stack_size - 1
        first_false_pos :=
          if cs.first_false_pos = cs.stack_size - 1 then NO_FALSE
          else cs.first_false_pos }

/-- Embedding of ConditionStack::toggle_top: none on an empty stack;
otherwise flip the top slot, which only moves first_false_pos when the
stack was all true or the top was the first false. -/
def ConditionStack.toggle_top (cs : ConditionStack) : Option ConditionStack :=
  if cs.stack_size = 0 then none
  else if cs.first_false_pos = NO_FALSE then
    some { cs with first_false_pos := cs.stack_size - 1 }
  else if cs.first_false_pos = cs.stack_size - 1 then
    some { cs with first_false_pos := NO_FALSE }
  else some cs

/-- The three mutators of the condition stack, as abstract operations for
stating properties over operation sequences. -/
inductive CondOp where
  | push (b : Bool)
  | pop
  | toggle
deriving DecidableEq, Repr

/-- One operation applied to the compressed stack.  pop_back and
toggle_top return None on an empty stack without touching the state, so
the state is kept unchanged there. -/
def condStep (cs : ConditionStack) : CondOp → ConditionStack
  | .push b => cs.push_back b
  | .pop => (cs.pop_back).getD cs
  | .toggle => (cs.toggle_top).getD cs

/-- A sequence of operations applied to the compressed stack in order. -/
def condRun (ops : List CondOp) (cs : ConditionStack) : ConditionStack :=
  ops.foldl condStep cs

/-! ## Naive condition stack

The spec describes the condition stack abstractly as a vector of
booleans: push appends, pop removes the last element, toggle negates the
last element; is-empty and all-true are the two observables.  This naive
model is the reference side of the refinement claim and is written from
those words. -/

/-- One operation applied to a naive boolean vector whose last element is
the top: push appends, pop drops the last, toggle negates the last (both
no-ops on an empty vector, mirroring the None returns). -/
def naiveStep (l : List Bool) : CondOp → List Bool
  | .push b => l ++ [b]
  | .pop => l.dropLast
  | .toggle =>
      match l.getLast? with
      | none => l
      | some b => l.dropLast ++ [!b]

/-- A sequence of operations applied to the naive vector in order. -/
def naiveRun (ops : List CondOp) (l : List Bool) : List Bool :=
  ops.foldl naiveStep l

/-- Observable is-empty of the naive vector. -/
def naiveIsEmpty (l : List Bool) : Bool := l.isEmpty

/-- Observable all-true of the naive vector. -/
def naiveAllTrue (l : List Bool) : Bool := l.all id

/-! ## Machine (src/core/machine.rs)

A Machine owns a Stack and a ConditionStack and drives evaluation.  The
operator-system hook is passed as an explicit argument (the Rust struct
stores it; it never changes).  The hook receives the stack and the
condition stack and either returns their updated versions or an error,
mirroring FnMut(&mut Stack, &Op, &mut ConditionStack) -> Result<(), E>.
-/

/-- The machine state: evaluation stack plus condition stack. -/
structure Machine (Val : Type) where
  stack : Stack Val
  if_stack : ConditionStack
deriving DecidableEq, Repr

/-- Type of the operator-system hook. -/
def OpSys (Op Val E : Type) : Type :=
  Stack Val → Op → ConditionStack → Except E (Stack Val × ConditionStack)

/-- Embedding of Machine::operate: an operator item invokes the hook
unconditionally; a value item is pushed onto the main stack only when the
condition stack is all true.  On success the new topmost value of the
main stack is returned together with the updated machine. -/
def operate {Op Val E : Type} (op_sys : OpSys Op Val E) (m : Machine Val)
    (item : Item Op Val) : Except E (Machine Val × Option Val) :=
  match item with
  | .operator op =>
      match op_sys m.stack op m.if_stack with
      | .error e => .error e
      | .ok (s, c) => .ok (⟨s, c⟩, s.topmost)
  | .value v =>
      let m' : Machine Val :=
        if m.if_stack.all_true then { m with stack := m.stack.push v } else m
      .ok (m', m'.stack.topmost)

/-- Embedding of Machine::run_script: apply the items in order, stopping
at the first error; on success return the final topmost value. -/
def run_script {Op Val E : Type} (op_sys : OpSys Op Val E) (m : Machine Val) :
    Script Op Val → Except E (Machine Val × Option Val)
  | [] => .ok (m, m.stack.topmost)
  | item :: rest =>
      match operate op_sys m item with
      | .error e => .error e
      | .ok (m', _) => run_script op_sys m' rest

/-! ## Value equality (src/core/value.rs)

The PartialEq impl compares floats through the squared difference of two
f64 values against a small positive tolerance.  IEEE-754 binary64 values
are modelled as either a finite rational or one of the special values
positive infinity, negative infinity and NaN.  The theorems in this file
only ever subtract a finite value from itself and multiply zero by zero;
both operations are exact in binary64, so finite arithmetic is modelled
by exact rational arithmetic (general rounding is not reproduced, and no
statement below depends on it).  What the model does capture exactly is
the IEEE behaviour driving the comparisons: inf - inf = NaN, NaN
propagates through subtraction and multiplication, and every ordered
comparison involving NaN is false.
-/

/-- Model of an f64: a finite value or one of the special values. -/
inductive F64 where
  | finite (q : ℚ)
  | posInf
  | negInf
  | nan
deriving DecidableEq, Repr

/-- IEEE-754 subtraction on the model (finite case exact, see above). -/
def F64.sub : F64 → F64 → F64
  | .nan, _ => .nan
  | _, .nan => .nan
  | .finite a, .finite b => .finite (a - b)
  | .finite _, .posInf => .negInf
  | .finite _, .negInf => .posInf
  | .posInf, .finite _ => .posInf
  | .negInf, .finite _ => .negInf
  | .posInf, .posInf => .nan
  | .posInf, .negInf => .posInf
  | .negInf, .posInf => .negInf
  | .negInf, .negInf => .nan

/-- IEEE-754 multiplication on the model (finite case exact, see above);
infinity times zero is NaN, otherwise signs multiply. -/
def F64.mul : F64 → F64 → F64
  | .nan, _ => .nan
  | _, .nan => .nan
  | .finite a, .finite b => .finite (a * b)
  | .finite a, .posInf => if a = 0 then .nan else if 0 < a then .posInf else .negInf
  | .finite a, .negInf => if a = 0 then .nan else if 0 < a then .negInf else .posInf
  | .posInf, .finite b => if b = 0 then .nan else if 0 < b then .posInf else .negInf
  | .negInf, .finite b => if b = 0 then .nan else if 0 < b then .negInf else .posInf
  | .posInf, .posInf => .posInf
  | .posInf, .negInf => .negInf
  | .negInf, .posInf => .negInf
  | .negInf, .negInf => .posInf

/-- IEEE-754 strict less-than on the model: false whenever NaN is
involved. -/
def F64.lt : F64 → F64 → Bool
  | .nan, _ => false
  | _, .nan => false
  | .finite a, .finite b => decide (a < b)
  | .finite _, .posInf => true
  | .finite _, .negInf => false
  | .posInf, .posInf => false
  | .posInf, .finite _ => false
  | .posInf, .negInf => false
  | .negInf, .negInf => false
  | .negInf, _ => true

/-- The tolerance literal 0.000_000_000_000_000_000_1 of the PartialEq
impl.  The f64 literal denotes the binary64 value nearest to 10 ^ -19, a
positive number; only its positivity and its NaN comparisons matter to
the statements below, so the model uses the exact decimal value. -/
def FLOAT_TOLERANCE : F64 := .finite (1 / 10 ^ 19)

/-- Conversion of an i128 to f64 performed by the `as f64` casts of the
mixed Integer and Float comparison arms.  Rounding to the nearest
binary64 is not reproduced; no statement below exercises the mixed arms
beyond their existence. -/
def i128_as_f64 (i : ℤ) : F64 := .finite i

/-- The Value union of src/core/value.rs with the float variant carried
by the F64 model, as the PartialEq impl sees it. -/
inductive Value where
  | boolean (b : Bool)
  | float (x : F64)
  | integer (i : ℤ)
  | str (s : String)
deriving DecidableEq, Repr

/-- The squared-difference tolerance comparison used by every float arm
of PartialEq: (a - b) * (a - b) < 1e-19. -/
def floatApproxEq (a b : F64) : Bool :=
  F64.lt (F64.mul (F64.sub a b) (F64.sub a b)) FLOAT_TOLERANCE

/-- Embedding of the PartialEq impl for Value: exact comparison on
matching Boolean, Integer and String variants, approximate comparison on
floats and on the two mixed Integer and Float arms, false on every other
combination of variants. -/
def value_eq : Value → Value → Bool
  | .boolean a, .boolean b => a == b
  | .float a, .float b => floatApproxEq a b
  | .float a, .integer b => floatApproxEq a (i128_as_f64 b)
  | .integer a, .integer b => a == b
  | .integer a, .float b => floatApproxEq (i128_as_f64 a) b
  | .str a, .str b => a == b
  | _, _ => false

/-- Formula for the significant-byte count in the words of the claim: the
smallest k in [0, 15] such that abs(v) >> (8 * (k + 1)) ≤ 1.  This
definition follows the claim text, to be compared with the
significant_bytes_count of the source. -/
def sbc_per_claim (v : ℤ) : Nat :=
  ((List.range 16).find? (fun k => decide (v.natAbs >>> (8 * (k + 1)) ≤ 1))).getD 15

end Scriptful

namespace Scriptful

set_option maxRecDepth 200000

/-! ## Arithmetic facts about the encoder -/

/-- leBytes always produces exactly the requested width. -/
theorem leBytes_length : ∀ (w n : Nat), (leBytes w n).length = w := by
  intro w
  induction w with
  | zero => intro n; rfl
  | succ k ih => intro n; simp [leBytes, ih]

/-- The loop of significant_bytes_count stops at the first shift count
whose shifted dividend is at most 256, and every earlier shift leaves the
dividend above 256. -/
theorem sbcGo_shift : ∀ fuel d : Nat, d ≤ fuel →
    d >>> (8 * sbcGo fuel d) ≤ 256 ∧ ∀ j < sbcGo fuel d, 256 < d >>> (8 * j) := by
  intro fuel
  induction fuel with
  | zero =>
      intro d hd
      interval_cases d
      exact ⟨by simp [sbcGo], by simp [sbcGo]⟩
  | succ n ih =>
      intro d hd
      simp only [sbcGo]
      split
      · have hlt : d >>> 8 < d := by
          simp only [Nat.shiftRight_eq_div_pow]
          exact Nat.div_lt_self (by omega) (by norm_num)
        obtain ⟨ih1, ih2⟩ := ih (d >>> 8) (by omega)
        constructor
        · have : 8 * (sbcGo n (d >>> 8) + 1) = 8 + 8 * sbcGo n (d >>> 8) := by ring
          rw [this, Nat.shiftRight_add]
          exact ih1
        · intro j hj
          cases j with
          | zero => simpa using ‹256 < d›
          | succ j' =>
              have : 8 * (j' + 1) = 8 + 8 * j' := by ring
              rw [this, Nat.shiftRight_add]
              exact ih2 j' (by omega)
      · refine ⟨by simpa using ‹¬256 < d›, by omega⟩

/-- Characterization of the loop of significant_bytes_count. -/
theorem sbcLoop_shift (d : Nat) :
    d >>> (8 * sbcLoop d) ≤ 256 ∧ ∀ j < sbcLoop d, 256 < d >>> (8 * j) :=
  sbcGo_shift d d le_rfl

/-- Minimality: any shift count whose shifted dividend is at most 256
bounds the loop counter. -/
theorem sbcLoop_le {d k : Nat} (h : d >>> (8 * k) ≤ 256) : sbcLoop d ≤ k := by
  by_contra hc
  exact absurd h (by simpa using (sbcLoop_shift d).2 k (by omega))

/-- The saturating absolute value of an i128 never exceeds i128::MAX. -/
theorem satAbs_le {v : ℤ} (h1 : -(2 ^ 127) ≤ v) (h2 : v < 2 ^ 127) :
    satAbs v ≤ 2 ^ 127 - 1 := by
  unfold satAbs
  split
  · norm_num
  · omega

/-- In the i128 range the significant byte count never exceeds 15. -/
theorem significant_bytes_count_le_15 {v : ℤ} (h1 : -(2 ^ 127) ≤ v)
    (h2 : v < 2 ^ 127) : significant_bytes_count v ≤ 15 := by
  apply sbcLoop_le
  have hb := satAbs_le h1 h2
  calc satAbs v >>> (8 * 15) ≤ (2 ^ 127 - 1) >>> (8 * 15) := by
        simp only [Nat.shiftRight_eq_div_pow]
        exact Nat.div_le_div_right hb
    _ ≤ 256 := by decide

/-! ## Claim C3: shape of the integer encoding -/

/-- C3 (corrected): for every i128 value v the encoder emits the
discriminant 0x03 + sbc followed by exactly the low sbc + 1 little-endian
two's-complement bytes of v, and sbc = significant_bytes_count v is the
smallest k (always at most 15) such that the saturating absolute value of
v shifted right by 8 * k is at most 256 — the loop shifts by 8 while the
magnitude exceeds 256.  In particular 0 encodes with the single body byte
0x00, and i128::MAX and i128::MIN both get sbc = 15, a full 16-byte body
and discriminant 0x12. -/
theorem c3_integer_encoding (v : ℤ) (h1 : -(2 ^ 127) ≤ v) (h2 : v < 2 ^ 127) :
    encodeValue (.integer v)
        = (0x03 + significant_bytes_count v) ::
            (leBytes 16 (toNat2c v)).take (significant_bytes_count v + 1)
    ∧ significant_bytes_count v ≤ 15
    ∧ satAbs v >>> (8 * significant_bytes_count v) ≤ 256
    ∧ (∀ j < significant_bytes_count v, 256 < satAbs v >>> (8 * j))
    ∧ (encodeValue (.integer v)).length = significant_bytes_count v + 2
    ∧ (v = 0 → encodeValue (.integer v) = [0x03, 0x00])
    ∧ (v = 2 ^ 127 - 1 →
        significant_bytes_count v = 15
        ∧ encodeValue (.integer v) = 0x12 :: leBytes 16 (toNat2c v))
    ∧ (v = -(2 ^ 127) →
        significant_bytes_count v = 15
        ∧ encodeValue (.integer v) = 0x12 :: leBytes 16 (toNat2c v)) := by
  have hle := significant_bytes_count_le_15 h1 h2
  refine ⟨rfl, hle, (sbcLoop_shift (satAbs v)).1, (sbcLoop_shift (satAbs v)).2,
    ?_, ?_, ?_, ?_⟩
  · simp only [encodeValue, List.length_cons, List.length_take, leBytes_length]
    omega
  · rintro rfl
    decide
  · rintro rfl
    constructor
    · decide
    · have hs : significant_bytes_count (2 ^ 127 - 1 : ℤ) = 15 := by decide
      simp only [encodeValue, hs]
      rw [List.take_of_length_le (by rw [leBytes_length])]
  · rintro rfl
    constructor
    · decide
    · have hs : significant_bytes_count (-(2 ^ 127) : ℤ) = 15 := by decide
      simp only [encodeValue, hs]
      rw [List.take_of_length_le (by rw [leBytes_length])]

/-- Witness for c3_integer_encoding at v = 0: the hypotheses hold and the
encoder emits discriminant 0x03 with the single body byte 0x00. -/
theorem c3_integer_encoding_witness :
    (-(2 ^ 127) ≤ (0 : ℤ)) ∧ ((0 : ℤ) < 2 ^ 127)
    ∧ encodeValue (.integer 0) = [0x03, 0x00] :=
  ⟨by norm_num, by norm_num,
    (c3_integer_encoding 0 (by norm_num) (by norm_num)).2.2.2.2.2.1 rfl⟩

/-- C3 (counterexample to the stated formula): at v = 257 the formula of
the claim — the smallest k with abs(v) >> (8 * (k + 1)) ≤ 1 — yields
k = 0, so the claim predicts discriminant 0x03 with the single body byte
0x01; the source loop instead yields sbc = 1 and the encoder emits
discriminant 0x04 with two body bytes. -/
theorem c3_counterexample :
    sbc_per_claim 257 = 0
    ∧ (257 : ℤ).natAbs >>> (8 * (0 + 1)) ≤ 1
    ∧ significant_bytes_count 257 = 1
    ∧ encodeValue (.integer 257) = [0x04, 0x01, 0x01]
    ∧ encodeValue (.integer 257) ≠ [0x03, 0x01] := by decide

/-! ## Claim C1: the codec round trip fails -/

/-- C1 (failing inputs): decoding the encoder output does not return the
original script.  The boundary magnitude 256 comes back as 0, the
negative integer -1 comes back as 255, and 65537 comes back as 1. -/
theorem c1_roundtrip_failing_inputs :
    decode_script (encodeScript [.value (.integer 256)])
        = .ok [.value (.integer 0)]
    ∧ decode_script (encodeScript [.value (.integer (-1))])
        = .ok [.value (.integer 255)]
    ∧ decode_script (encodeScript [.value (.integer 65537)])
        = .ok [.value (.integer 1)] := by decide

/-! ## Claim C2: short bodies for negative integers -/

/-- C2 (failing input): the encoder derives the byte count from the
saturating absolute value, so the negative integer -1 is emitted with a
single body byte 0xFF rather than all 16; the decoder zero-extends that
short body and returns the non-negative integer 255. -/
theorem c2_negative_short_body :
    encodeValue (.integer (-1)) = [0x03, 0xFF]
    ∧ (encodeValue (.integer (-1))).length = 2
    ∧ decodeValue [0x03, 0xFF] = .ok (.integer 255) []
    ∧ ((-1 : ℤ) < 0) := by decide

/-! ## Claim C5: decode_script panics instead of returning errors -/

/-- C5 (failing inputs): on malformed input the item decoder returns a
typed error (or itself panics on string discriminants announcing more
than 8 length bytes), and decode_script unwraps that result, turning
every failure into a panic — an unknown discriminant 0x7A, a truncated
integer body, an invalid UTF-8 string body, an unknown opcode 0x05, an
oversized length-of-length, and a malformed second item all panic. -/
theorem c5_decode_script_panics :
    decode_item [0x7A] = .fail
    ∧ decode_script [0x7A] = .panics
    ∧ decode_item [0x03] = .fail
    ∧ decode_script [0x03] = .panics
    ∧ decode_item [0x14, 0x01, 0xFF] = .fail
    ∧ decode_script [0x14, 0x01, 0xFF] = .panics
    ∧ decode_item [0x85] = .fail
    ∧ decode_script [0x85] = .panics
    ∧ decode_item [0x1C, 0, 0, 0, 0, 0, 0, 0, 0, 0] = .panics
    ∧ decode_script [0x00, 0x7A] = .panics := by decide

/-! ## Claim C6: stack underflow panics -/

/-- C6 (failing input): popping an empty main sub-stack panics through
unwrap (modelled by none) rather than returning a StackUnderflow error,
and likewise pop_into_alt on an empty main and push_from_alt on an empty
alt; on a non-empty main, pop does remove and return the topmost value. -/
theorem c6_pop_underflow_panics :
    Stack.pop (⟨[], []⟩ : Stack ℤ) = none
    ∧ Stack.pop_into_alt (⟨[], []⟩ : Stack ℤ) = none
    ∧ Stack.push_from_alt (⟨[(1 : ℤ)], []⟩ : Stack ℤ) = none
    ∧ Stack.pop (⟨[(7 : ℤ), (3 : ℤ)], []⟩ : Stack ℤ)
        = some (7, ⟨[(3 : ℤ)], []⟩) := by decide

/-! ## Claim C4: dispatch in Machine::operate -/

/-- C4: operate on a Value item pushes the value onto the main stack
exactly when the condition stack is all true — otherwise the machine is
left unchanged and the value is discarded — and on success returns the
new topmost value of the main stack (none when it is empty); operate on
an Operator item invokes the operator-system hook unconditionally,
whatever the state of the condition stack, and on success returns the
new topmost value. -/
theorem c4_operate_semantics {Op Val E : Type} (op_sys : OpSys Op Val E)
    (m : Machine Val) (v : Val) (op : Op) :
    operate op_sys m (.value v)
        = .ok
            (if m.if_stack.all_true
              then ({ stack := ⟨v :: m.stack.main, m.stack.alt⟩,
                      if_stack := m.if_stack }, some v)
              else (m, m.stack.topmost))
    ∧ operate op_sys m (.operator op)
        = (match op_sys m.stack op m.if_stack with
            | .error e => .error e
            | .ok (s, c) => .ok (⟨s, c⟩, s.topmost)) := by
  constructor
  · cases h : m.if_stack.all_true <;>
      simp [operate, h, Stack.push, Stack.topmost]
  · rfl

/-! ## Claim C10: frame of the Value arm of Machine::operate -/

/-- C10: operate on a Value item never returns an error; the condition
stack and the alt sub-stack are unchanged, and the main sub-stack either
stays the same or grows by exactly the pushed value. -/
theorem c10_value_arm_frame {Op Val E : Type} (op_sys : OpSys Op Val E)
    (m : Machine Val) (v : Val) :
    ∃ (m' : Machine Val) (t : Option Val),
      operate op_sys m (.value v) = .ok (m', t)
      ∧ m'.if_stack = m.if_stack
      ∧ m'.stack.alt = m.stack.alt
      ∧ (m'.stack.main = m.stack.main ∨ m'.stack.main = v :: m.stack.main) := by
  cases h : m.if_stack.all_true
  · exact ⟨m, m.stack.topmost, by simp [operate, h], rfl, rfl, .inl rfl⟩
  · exact ⟨{ stack := ⟨v :: m.stack.main, m.stack.alt⟩, if_stack := m.if_stack },
      some v, by simp [operate, h, Stack.push, Stack.topmost], rfl, rfl, .inr rfl⟩

/-! ## Claim C9: reflexivity of Value equality -/

/-- C9 (counterexample): self-comparison of a non-finite float is false,
because x - x is NaN there and every comparison against NaN is false; the
claim asserts reflexivity including non-finite values. -/
theorem c9_counterexample :
    value_eq (.float .nan) (.float .nan) = false
    ∧ value_eq (.float .posInf) (.float .posInf) = false
    ∧ value_eq (.float .negInf) (.float .negInf) = false := by decide

/-- C9 (amended): Value equality is reflexive on every Boolean, Integer
and String value and on every finite Float value (the squared difference
is exactly zero, below the tolerance); self-comparison of NaN and of the
infinities yields false; and every cross-kind comparison other than
Integer with Float (in either order) yields false. -/
theorem c9_value_eq_reflexive :
    (∀ b : Bool, value_eq (.boolean b) (.boolean b) = true)
    ∧ (∀ i : ℤ, value_eq (.integer i) (.integer i) = true)
    ∧ (∀ s : String, value_eq (.str s) (.str s) = true)
    ∧ (∀ q : ℚ, value_eq (.float (.finite q)) (.float (.finite q)) = true)
    ∧ value_eq (.float .nan) (.float .nan) = false
    ∧ value_eq (.float .posInf) (.float .posInf) = false
    ∧ value_eq (.float .negInf) (.float .negInf) = false
    ∧ (∀ b i, value_eq (.boolean b) (.integer i) = false)
    ∧ (∀ b x, value_eq (.boolean b) (.float x) = false)
    ∧ (∀ b s, value_eq (.boolean b) (.str s) = false)
    ∧ (∀ x s, value_eq (.float x) (.str s) = false)
    ∧ (∀ i s, value_eq (.integer i) (.str s) = false)
    ∧ (∀ i b, value_eq (.integer i) (.boolean b) = false)
    ∧ (∀ x b, value_eq (.float x) (.boolean b) = false)
    ∧ (∀ s b, value_eq (.str s) (.boolean b) = false)
    ∧ (∀ s x, value_eq (.str s) (.float x) = false)
    ∧ (∀ s i, value_eq (.str s) (.integer i) = false) := by
  refine ⟨?_, ?_, ?_, ?_, by decide, by decide, by decide,
    fun b i => rfl, fun b x => rfl, fun b s => rfl, fun x s => rfl,
    fun i s => rfl, fun i b => rfl, fun x b => rfl, fun s b => rfl,
    fun s x => rfl, fun s i => rfl⟩
  · intro b
    cases b <;> rfl
  · intro i
    simp [value_eq]
  · intro s
    simp [value_eq]
  · intro q
    simp only [value_eq, floatApproxEq, F64.sub, sub_self, F64.mul, mul_zero,
      F64.lt, FLOAT_TOLERANCE, decide_eq_true_eq]
    norm_num

/-! ## Refinement between the naive boolean vector and the compressed
condition stack

CondRel states that the compressed pair abstracts the naive vector: the
size matches and first_false_pos is the sentinel exactly when the vector
is all true, and otherwise the index (from the bottom, position 0) of the
first false element.  The relation is preserved by every operation as
long as the vector stays short enough that a genuine position can never
collide with the u32::MAX sentinel and the u32 size cannot wrap. -/

/-- Abstraction relation between a naive boolean vector (bottom first,
top last) and the compressed condition stack. -/
def CondRel (l : List Bool) (cs : ConditionStack) : Prop :=
  cs.stack_size = l.length
  ∧ ((cs.first_false_pos = NO_FALSE ∧ ∀ b ∈ l, b = true)
      ∨ (cs.first_false_pos < l.length
        ∧ (∀ b ∈ l.take cs.first_false_pos, b = true)
        ∧ l[cs.first_false_pos]? = some false))

/-- push_back preserves the refinement relation below the size bound. -/
theorem condRel_push {l : List Bool} {cs : ConditionStack} {k : Nat} (b : Bool)
    (hR : CondRel l cs) (hlen : l.length ≤ k) (hk : k + 1 ≤ 2 ^ 32 - 1) :
    CondRel (l ++ [b]) (cs.push_back b) := by
  obtain ⟨hsz, hcase⟩ := hR
  have hUlt : cs.stack_size + 1 < U32 := by
    simp only [U32]
    omega
  unfold CondRel
  simp only [ConditionStack.push_back]
  refine ⟨?_, ?_⟩
  · rw [Nat.mod_eq_of_lt hUlt, hsz]
    simp
  · rcases hcase with ⟨hf, hall⟩ | ⟨hlt, htake, hget⟩
    · cases b with
      | true =>
          left
          rw [if_neg (by simp : ¬(cs.first_false_pos = NO_FALSE ∧ true = false))]
          refine ⟨hf, ?_⟩
          intro x hx
          rcases List.mem_append.mp hx with hx | hx
          · exact hall x hx
          · simpa using hx
      | false =>
          right
          rw [if_pos ⟨hf, rfl⟩, hsz]
          refine ⟨by simp, ?_, ?_⟩
          · rw [List.take_left]
            exact hall
          · exact List.getElem?_concat_length l false
    · have hne : cs.first_false_pos ≠ NO_FALSE := by
        simp only [NO_FALSE]
        omega
      right
      rw [if_neg (by simp [hne])]
      refine ⟨by simp only [List.length_append, List.length_cons]; omega, ?_, ?_⟩
      · rw [List.take_append_of_le_length (by omega)]
        exact htake
      · rw [List.getElem?_append, if_pos hlt]
        exact hget

/-- pop_back (with the state kept as is on the empty-stack None)
preserves the refinement relation below the size bound. -/
theorem condRel_pop {l : List Bool} {cs : ConditionStack} {k : Nat}
    (hR : CondRel l cs) (hlen : l.length ≤ k) (hk : k + 1 ≤ 2 ^ 32 - 1) :
    CondRel l.dropLast ((cs.pop_back).getD cs) := by
  obtain ⟨hsz, hcase⟩ := hR
  unfold ConditionStack.pop_back
  by_cases h0 : cs.stack_size = 0
  · have hl : l = [] := by
      rw [h0] at hsz
      exact List.eq_nil_of_length_eq_zero hsz.symm
    subst hl
    rw [if_pos h0]
    exact ⟨hsz, hcase⟩
  · rw [if_neg h0]
    simp only [Option.getD_some]
    unfold CondRel
    refine ⟨by simp only [List.length_dropLast, hsz], ?_⟩
    rcases hcase with ⟨hf, hall⟩ | ⟨hlt, htake, hget⟩
    · left
      have hcond : cs.first_false_pos ≠ cs.stack_size - 1 := by
        simp only [hf, NO_FALSE]
        omega
      rw [if_neg hcond]
      refine ⟨hf, ?_⟩
      intro x hx
      exact hall x (List.mem_of_mem_dropLast hx)
    · by_cases htop : cs.first_false_pos = cs.stack_size - 1
      · left
        rw [if_pos htop]
        refine ⟨rfl, ?_⟩
        intro x hx
        apply htake
        rw [List.dropLast_eq_take] at hx
        have hix : cs.first_false_pos = l.length - 1 := by omega
        rw [hix]
        exact hx
      · right
        rw [if_neg htop]
        have hlt2 : cs.first_false_pos < l.length - 1 := by omega
        refine ⟨by simp only [List.length_dropLast]; omega, ?_, ?_⟩
        · intro x hx
          apply htake
          rw [List.dropLast_eq_take, List.take_take,
            Nat.min_eq_left (by omega : cs.first_false_pos ≤ l.length - 1)] at hx
          exact hx
        · rw [List.dropLast_eq_take, List.getElem?_take, if_pos hlt2]
          exact hget

/-- toggle_top (with the state kept as is on the empty-stack None)
preserves the refinement relation below the size bound. -/
theorem condRel_toggle {l : List Bool} {cs : ConditionStack} {k : Nat}
    (hR : CondRel l cs) (hlen : l.length ≤ k) (hk : k + 1 ≤ 2 ^ 32 - 1) :
    CondRel (naiveStep l .toggle) ((cs.toggle_top).getD cs) := by
  obtain ⟨hsz, hcase⟩ := hR
  unfold ConditionStack.toggle_top
  by_cases h0 : cs.stack_size = 0
  · have hl : l = [] := by
      rw [h0] at hsz
      exact List.eq_nil_of_length_eq_zero hsz.symm
    subst hl
    rw [if_pos h0]
    exact ⟨hsz, hcase⟩
  · have hne : l ≠ [] := by
      intro hl
      rw [hl] at hsz
      simp only [List.length_nil] at hsz
      omega
    rw [if_neg h0]
    have hstep : naiveStep l .toggle = l.dropLast ++ [!(l.getLast hne)] := by
      simp only [naiveStep, List.getLast?_eq_getLast_of_ne_nil hne]
    rcases hcase with ⟨hf, hall⟩ | ⟨hlt, htake, hget⟩
    · -- all true: the top becomes the first false
      rw [if_pos hf]
      simp only [Option.getD_some]
      have hlast : l.getLast hne = true :=
        hall _ (List.getLast_mem hne)
      unfold CondRel
      dsimp only
      refine ⟨?_, ?_⟩
      · rw [hstep]
        simp only [List.length_append, List.length_dropLast, List.length_cons,
          List.length_nil, hsz]
        omega
      · right
        rw [hstep, hlast]
        have hdl : l.dropLast.length = l.length - 1 := List.length_dropLast l
        refine ⟨?_, ?_, ?_⟩
        · simp only [List.length_append, List.length_dropLast, List.length_cons,
            List.length_nil]
          omega
        · intro x hx
          rw [List.take_append_of_le_length (by omega)] at hx
          exact hall x (List.mem_of_mem_dropLast (List.mem_of_mem_take hx))
        · have hix2 : cs.stack_size - 1 = l.dropLast.length := by omega
          rw [hix2, List.getElem?_concat_length]
          simp
    · have hfne : cs.first_false_pos ≠ NO_FALSE := by
        simp only [NO_FALSE]
        omega
      rw [if_neg hfne]
      by_cases htop : cs.first_false_pos = cs.stack_size - 1
      · -- the top was the first false: everything becomes true
        rw [if_pos htop]
        simp only [Option.getD_some]
        have hlast : l.getLast hne = false := by
          have hix : cs.first_false_pos = l.length - 1 := by omega
          rw [List.getLast_eq_getElem] at *
          have := hget
          rw [hix] at this
          rw [List.getElem?_eq_some] at this
          obtain ⟨hh, hv⟩ := this
          exact hv
      -- continues below
        unfold CondRel
        dsimp only
        refine ⟨?_, ?_⟩
        · rw [hstep]
          simp only [List.length_append, List.length_dropLast, List.length_cons,
            List.length_nil, hsz]
          omega
        · left
          refine ⟨rfl, ?_⟩
          intro x hx
          rw [hstep, hlast] at hx
          rcases List.mem_append.mp hx with hx | hx
          · apply htake
            rw [List.dropLast_eq_take] at hx
            have hix : cs.first_false_pos = l.length - 1 := by omega
            rw [hix]
            exact hx
          · simpa using hx
      · -- the first false is buried: nothing observable changes
        rw [if_neg htop]
        simp only [Option.getD_some]
        have hlt2 : cs.first_false_pos < l.length - 1 := by omega
        unfold CondRel
        refine ⟨?_, ?_⟩
        · rw [hstep]
          simp only [List.length_append, List.length_dropLast, List.length_cons,
            List.length_nil, hsz]
          omega
        · right
          rw [hstep]
          have hdl : l.dropLast.length = l.length - 1 := List.length_dropLast l
          refine ⟨?_, ?_, ?_⟩
          · simp only [List.length_append, List.length_dropLast, List.length_cons,
              List.length_nil]
            omega
          · intro x hx
            rw [List.take_append_of_le_length (by omega)] at hx
            apply htake
            rw [List.dropLast_eq_take, List.take_take,
              Nat.min_eq_left (by omega : cs.first_false_pos ≤ l.length - 1)] at hx
            exact hx
          · rw [List.getElem?_append, if_pos (by omega : cs.first_false_pos < l.dropLast.length),
              List.dropLast_eq_take, List.getElem?_take, if_pos hlt2]
            exact hget

/-- Toggling never changes the length of the naive vector. -/
theorem naiveStep_toggle_length (l : List Bool) :
    (naiveStep l .toggle).length = l.length := by
  cases l with
  | nil => rfl
  | cons a t =>
      simp only [naiveStep,
        List.getLast?_eq_getLast_of_ne_nil (List.cons_ne_nil a t)]
      simp only [List.length_append, List.length_dropLast, List.length_cons,
        List.length_nil]
      omega

/-- One parallel step preserves the refinement relation and grows the
vector by at most one element. -/
theorem condRel_step (op : CondOp) {l : List Bool} {cs : ConditionStack}
    {k : Nat} (hR : CondRel l cs) (hlen : l.length ≤ k)
    (hk : k + 1 ≤ 2 ^ 32 - 1) :
    CondRel (naiveStep l op) (condStep cs op)
    ∧ (naiveStep l op).length ≤ k + 1 := by
  cases op with
  | push b =>
      refine ⟨condRel_push b ⟨hR.1, hR.2⟩ hlen hk, ?_⟩
      simp only [naiveStep, List.length_append, List.length_cons, List.length_nil]
      omega
  | pop =>
      refine ⟨condRel_pop ⟨hR.1, hR.2⟩ hlen hk, ?_⟩
      simp only [naiveStep, List.length_dropLast]
      omega
  | toggle =>
      refine ⟨condRel_toggle ⟨hR.1, hR.2⟩ hlen hk, ?_⟩
      rw [naiveStep_toggle_length]
      omega

/-- Running a parallel sequence of operations preserves the refinement
relation, with the vector length bounded by the number of operations. -/
theorem condRel_run : ∀ (ops : List CondOp) {l : List Bool}
    {cs : ConditionStack} (k : Nat), CondRel l cs → l.length ≤ k →
    k + ops.length ≤ 2 ^ 32 - 1 →
    CondRel (naiveRun ops l) (condRun ops cs)
    ∧ (naiveRun ops l).length ≤ k + ops.length := by
  intro ops
  induction ops with
  | nil =>
      intro l cs k hR hl _
      exact ⟨hR, by simpa using hl⟩
  | cons op rest ih =>
      intro l cs k hR hl hk
      simp only [List.length_cons] at hk
      have hstep := condRel_step op hR hl (by omega)
      have hrec := ih (k + 1) hstep.1 hstep.2 (by omega)
      simp only [naiveRun, condRun, List.foldl_cons] at hrec ⊢
      exact ⟨hrec.1, by simp only [List.length_cons]; omega⟩

/-- Under the refinement relation (below the sentinel bound) the two
observables agree between the naive vector and the compressed stack. -/
theorem condRel_observables {l : List Bool} {cs : ConditionStack}
    (hR : CondRel l cs) (hlen : l.length ≤ 2 ^ 32 - 1) :
    naiveIsEmpty l = cs.is_empty ∧ naiveAllTrue l = cs.all_true := by
  obtain ⟨hsz, hcase⟩ := hR
  constructor
  · unfold naiveIsEmpty ConditionStack.is_empty
    rw [hsz]
    cases l <;> simp
  · unfold naiveAllTrue ConditionStack.all_true
    rcases hcase with ⟨hf, hall⟩ | ⟨hlt, htake, hget⟩
    · rw [hf]
      simp only [beq_self_eq_true]
      rw [List.all_eq_true]
      intro x hx
      simpa using hall x hx
    · have hne : cs.first_false_pos ≠ NO_FALSE := by
        simp only [NO_FALSE]
        omega
      rw [beq_eq_false_iff_ne.mpr hne, List.all_eq_false]
      obtain ⟨hh, hv⟩ := List.getElem?_eq_some.mp hget
      exact ⟨false, by rw [← hv]; exact List.getElem_mem hh, by simp⟩

/-- Runs unfold one operation at a time. -/
theorem condRun_cons (op : CondOp) (rest : List CondOp) (cs : ConditionStack) :
    condRun (op :: rest) cs = condRun rest (condStep cs op) := by
  simp only [condRun, List.foldl_cons]

/-- Runs split over list append. -/
theorem condRun_append (l1 l2 : List CondOp) (cs : ConditionStack) :
    condRun (l1 ++ l2) cs = condRun l2 (condRun l1 cs) := by
  simp [condRun, List.foldl_append]

/-- Runs split over list append (naive side). -/
theorem naiveRun_append (l1 l2 : List CondOp) (l : List Bool) :
    naiveRun (l1 ++ l2) l = naiveRun l2 (naiveRun l1 l) := by
  simp [naiveRun, List.foldl_append]

/-- Pushing true any number of times never touches first_false_pos and
adds to the size modulo 2 ^ 32. -/
theorem condRun_replicate_push_true (n : Nat) : ∀ (s f : Nat), s < U32 →
    condRun (List.replicate n (CondOp.push true)) ⟨s, f⟩
      = ⟨(s + n) % U32, f⟩ := by
  induction n with
  | zero =>
      intro s f hs
      simp [condRun, Nat.mod_eq_of_lt hs]
  | succ m ih =>
      intro s f hs
      rw [List.replicate_succ]
      simp only [condRun, List.foldl_cons]
      have hstep : condStep ⟨s, f⟩ (CondOp.push true) = ⟨(s + 1) % U32, f⟩ := by
        simp [condStep, ConditionStack.push_back]
      rw [hstep]
      have hmod : (s + 1) % U32 < U32 := Nat.mod_lt _ (by simp [U32])
      have := ih ((s + 1) % U32) f hmod
      simp only [condRun] at this
      rw [this]
      have : ((s + 1) % U32 + m) % U32 = (s + (m + 1)) % U32 := by
        simp only [U32]
        omega
      rw [this]

/-- Pushing true any number of times appends that many true entries to
the naive vector. -/
theorem naiveRun_replicate_push_true (n : Nat) : ∀ l : List Bool,
    naiveRun (List.replicate n (CondOp.push true)) l
      = l ++ List.replicate n true := by
  induction n with
  | zero => intro l; simp [naiveRun]
  | succ m ih =>
      intro l
      rw [List.replicate_succ]
      simp only [naiveRun, List.foldl_cons]
      have hstep : naiveStep l (CondOp.push true) = l ++ [true] := rfl
      rw [hstep]
      have := ih (l ++ [true])
      simp only [naiveRun] at this
      rw [this, List.append_assoc, List.replicate_succ]
      simp

/-! ## Claim C7: invariants of the compressed condition stack -/

/-- C7 (amended): for every sequence of fewer than 2 ^ 32 push_back,
pop_back or toggle_top operations applied from the default state, after
every operation first_false_pos is the sentinel or an index below
stack_size, first_false_pos differing from the sentinel forces all_true
to be false, and is_empty holds exactly when stack_size is zero. -/
theorem c7_condition_stack_invariants (ops : List CondOp)
    (h : ops.length < 2 ^ 32) (n : Nat) :
    ((condRun (ops.take n) ConditionStack.initial).first_false_pos = NO_FALSE
      ∨ (condRun (ops.take n) ConditionStack.initial).first_false_pos
          < (condRun (ops.take n) ConditionStack.initial).stack_size)
    ∧ ((condRun (ops.take n) ConditionStack.initial).first_false_pos ≠ NO_FALSE →
        (condRun (ops.take n) ConditionStack.initial).all_true = false)
    ∧ ((condRun (ops.take n) ConditionStack.initial).is_empty = true
        ↔ (condRun (ops.take n) ConditionStack.initial).stack_size = 0) := by
  have h0 : CondRel [] ConditionStack.initial := ⟨rfl, .inl ⟨rfl, by simp⟩⟩
  have hlen : (ops.take n).length ≤ ops.length := by
    rw [List.length_take]
    omega
  have hrun := condRel_run (ops.take n) 0 h0 (by simp) (by omega)
  obtain ⟨⟨hsz, hcase⟩, -⟩ := hrun
  refine ⟨?_, ?_, ?_⟩
  · rcases hcase with ⟨hf, -⟩ | ⟨hlt, -, -⟩
    · exact .inl hf
    · right
      rw [hsz]
      exact hlt
  · intro hne
    unfold ConditionStack.all_true
    exact beq_eq_false_iff_ne.mpr hne
  · unfold ConditionStack.is_empty
    exact beq_iff_eq

/-- Witness for c7_condition_stack_invariants: a single push of false is
a short enough sequence, and after it first_false_pos is a valid index. -/
theorem c7_condition_stack_invariants_witness :
    ([CondOp.push false].length < 2 ^ 32)
    ∧ ((condRun ([CondOp.push false].take 1) ConditionStack.initial).first_false_pos
          = NO_FALSE
        ∨ (condRun ([CondOp.push false].take 1) ConditionStack.initial).first_false_pos
            < (condRun ([CondOp.push false].take 1) ConditionStack.initial).stack_size) :=
  ⟨by norm_num, (c7_condition_stack_invariants [CondOp.push false] (by norm_num) 1).1⟩

/-- C7 (counterexample to the unrestricted claim): after pushing false
once and then pushing true u32::MAX more times (2 ^ 32 operations in
total), the u32 stack_size wraps around to 0 while first_false_pos still
holds the index 0, so first_false_pos is neither the sentinel nor below
stack_size. -/
theorem c7_counterexample :
    (condRun (CondOp.push false :: List.replicate (2 ^ 32 - 1) (CondOp.push true))
        ConditionStack.initial).first_false_pos ≠ NO_FALSE
    ∧ ¬((condRun (CondOp.push false :: List.replicate (2 ^ 32 - 1) (CondOp.push true))
          ConditionStack.initial).first_false_pos
        < (condRun (CondOp.push false :: List.replicate (2 ^ 32 - 1) (CondOp.push true))
            ConditionStack.initial).stack_size) := by
  have h1 : condStep ConditionStack.initial (CondOp.push false)
      = ⟨1, 0⟩ := by decide
  have h2 := condRun_replicate_push_true (2 ^ 32 - 1) 1 0 (by simp [U32])
  have hfull : condRun
      (CondOp.push false :: List.replicate (2 ^ 32 - 1) (CondOp.push true))
      ConditionStack.initial = ⟨0, 0⟩ := by
    rw [condRun_cons, h1, h2]
    have : (1 + (2 ^ 32 - 1)) % U32 = 0 := by
      simp only [U32]
      omega
    rw [this]
  rw [hfull]
  refine ⟨by simp [NO_FALSE], by simp⟩

/-! ## Claim C8: observable agreement of the two representations -/

/-- C8 (amended): for every sequence of fewer than 2 ^ 32 push, pop or
toggle operations applied in parallel to the naive boolean vector and the
compressed pair, the observables is-empty and all-true agree after every
step. -/
theorem c8_observable_agreement (ops : List CondOp)
    (h : ops.length < 2 ^ 32) (n : Nat) :
    naiveIsEmpty (naiveRun (ops.take n) [])
        = (condRun (ops.take n) ConditionStack.initial).is_empty
    ∧ naiveAllTrue (naiveRun (ops.take n) [])
        = (condRun (ops.take n) ConditionStack.initial).all_true := by
  have h0 : CondRel [] ConditionStack.initial := ⟨rfl, .inl ⟨rfl, by simp⟩⟩
  have hlen : (ops.take n).length ≤ ops.length := by
    rw [List.length_take]
    omega
  have hrun := condRel_run (ops.take n) 0 h0 (by simp) (by omega)
  exact condRel_observables hrun.1 (by have := hrun.2; omega)

/-- Witness for c8_observable_agreement at the two-operation sequence
push true then toggle, observed after both steps. -/
theorem c8_observable_agreement_witness :
    ([CondOp.push true, CondOp.toggle].length < 2 ^ 32)
    ∧ naiveAllTrue (naiveRun ([CondOp.push true, CondOp.toggle].take 2) [])
        = (condRun ([CondOp.push true, CondOp.toggle].take 2)
            ConditionStack.initial).all_true :=
  ⟨by norm_num,
    (c8_observable_agreement [CondOp.push true, CondOp.toggle] (by norm_num) 2).2⟩

/-- C8 (counterexample to the unrestricted claim): pushing true
u32::MAX times and then pushing false (2 ^ 32 operations in total) makes
the compressed representation store the false at position u32::MAX —
which is the sentinel — while the u32 size wraps to 0; the naive vector
then disagrees with the compressed stack on both observables. -/
theorem c8_counterexample :
    naiveAllTrue (naiveRun (List.replicate (2 ^ 32 - 1) (CondOp.push true)
          ++ [CondOp.push false]) [])
      ≠ (condRun (List.replicate (2 ^ 32 - 1) (CondOp.push true)
          ++ [CondOp.push false]) ConditionStack.initial).all_true
    ∧ naiveIsEmpty (naiveRun (List.replicate (2 ^ 32 - 1) (CondOp.push true)
          ++ [CondOp.push false]) [])
      ≠ (condRun (List.replicate (2 ^ 32 - 1) (CondOp.push true)
          ++ [CondOp.push false]) ConditionStack.initial).is_empty := by
  have hc0 := condRun_replicate_push_true (2 ^ 32 - 1) 0 NO_FALSE (by simp [U32])
  have hc : condRun (List.replicate (2 ^ 32 - 1) (CondOp.push true)
        ++ [CondOp.push false]) ConditionStack.initial
      = ⟨0, NO_FALSE⟩ := by
    rw [condRun_append]
    rw [show ConditionStack.initial = (⟨0, NO_FALSE⟩ : ConditionStack) from rfl, hc0]
    have hm : (0 + (2 ^ 32 - 1)) % U32 = 2 ^ 32 - 1 := by
      simp only [U32]
      omega
    rw [hm]
    decide
  have hn : naiveRun (List.replicate (2 ^ 32 - 1) (CondOp.push true)
        ++ [CondOp.push false]) []
      = List.replicate (2 ^ 32 - 1) true ++ [false] := by
    rw [naiveRun_append, naiveRun_replicate_push_true, List.nil_append]
    rfl
  rw [hc, hn]
  constructor
  · simp only [naiveAllTrue, List.all_append, List.all_cons, List.all_nil,
      id_eq, Bool.false_and, Bool.and_true, Bool.and_false]
    decide
  · unfold naiveIsEmpty
    intro h
    rw [show ConditionStack.is_empty ⟨0, NO_FALSE⟩ = true from rfl] at h
    exact absurd (List.isEmpty_iff.mp h)
      (List.append_ne_nil_of_right_ne_nil _ (by simp))

end Scriptful
